import Mathlib

/-!
Verification of the TF-IDF component in `src/2.1_rags/1_embeddings/1_tf-idf.ts`.

Strings are modelled as lists of Unicode code points (`List Nat`), matching the
JavaScript view of a string as a sequence of character codes.  The JavaScript
regular-expression character classes are embedded as decidable predicates on
code points: `\w` (without the `u` flag) is exactly `[A-Za-z0-9_]`, and `\s`
is the ECMAScript whitespace set.  `String.prototype.toLowerCase` is modelled
on the Basic Latin and Latin-1 ranges (the full Unicode case table is out of
scope; the mapping is the identity elsewhere), which covers every character
appearing in the concrete inputs used below.
-/

namespace TfIdf

/-- Code points of a string literal, for writing concrete inputs. -/
def codes (s : String) : List Nat := s.data.map Char.toNat

/-- JS `\w` character class (no `u` flag): ASCII letters, digits, underscore. -/
def isWordChar (c : Nat) : Bool :=
  decide ((97 ≤ c ∧ c ≤ 122) ∨ (65 ≤ c ∧ c ≤ 90) ∨ (48 ≤ c ∧ c ≤ 57) ∨ c = 95)

/-- JS `\s` character class: tab, LF, VT, FF, CR, space, NBSP, Ogham space
mark, the U+2000–U+200A spaces, LS, PS, NNBSP, MMSP, ideographic space, BOM. -/
def isWs (c : Nat) : Bool :=
  decide (c = 9 ∨ c = 10 ∨ c = 11 ∨ c = 12 ∨ c = 13 ∨ c = 32 ∨
    c = 160 ∨ c = 5760 ∨ (8192 ≤ c ∧ c ≤ 8202) ∨ c = 8232 ∨
    c = 8233 ∨ c = 8239 ∨ c = 8287 ∨ c = 12288 ∨ c = 65279)

/-- Model of `String.prototype.toLowerCase` on the Basic Latin and Latin-1
ranges: `A`–`Z` and `À`–`Þ` (except `×`, U+00D7) shift down by 32; the mapping
is the identity on every other modelled code point. -/
def jsToLower (c : Nat) : Nat :=
  if 65 ≤ c ∧ c ≤ 90 then c + 32
  else if 192 ≤ c ∧ c ≤ 222 ∧ c ≠ 215 then c + 32
  else c

/-- One character of `.replace(/[^\w\s]/g, " ")`: a character that is neither
a word character nor whitespace becomes a single space (code 32). -/
def replaceNonWord (c : Nat) : Nat := if isWordChar c || isWs c then c else 32

/-- The normalization prefix of `tokenize`: `.toLowerCase()` followed by
`.replace(/[^\w\s]/g, " ")`, both character-wise maps. -/
def normalize (s : List Nat) : List Nat := (s.map jsToLower).map replaceNonWord

/-- JS `.split(/\s+/)`: split on maximal runs of whitespace.  A leading run
yields a leading empty piece and a trailing run a trailing empty piece, as in
ECMAScript `String.prototype.split` with a regular expression separator. -/
def jsSplitWs : List Nat → List (List Nat)
  | [] => [[]]
  | c :: cs =>
    if isWs c then
      match cs with
      | [] => [] :: jsSplitWs cs
      | c2 :: _ => if isWs c2 then jsSplitWs cs else [] :: jsSplitWs cs
    else
      match jsSplitWs cs with
      | [] => [[c]]
      | h :: t => (c :: h) :: t

/-- `tokenize` from `1_tf-idf.ts`: lowercase, replace every character that is
neither a word character nor whitespace by a space, split on whitespace runs,
and keep only the pieces of positive length. -/
def tokenize (s : List Nat) : List (List Nat) :=
  (jsSplitWs (normalize s)).filter (fun w => decide (0 < w.length))

/-- Maximal runs of non-whitespace characters, in order: "split on runs of
whitespace and drop empty tokens" as a single direct definition.  Used as the
reference formulation of the splitting step. -/
def chunksNonWs : List Nat → List (List Nat)
  | [] => []
  | c :: cs =>
    if isWs c then chunksNonWs cs
    else
      match cs with
      | [] => [[c]]
      | c2 :: _ =>
        if isWs c2 then [c] :: chunksNonWs cs
        else
          match chunksNonWs cs with
          | [] => [[c]]
          | h :: t => (c :: h) :: t

/-- Reference tokenizer for the amended claim C1: lowercase, replace every
character that is not an ASCII word character or whitespace by a space, then
extract the maximal runs of non-whitespace characters (split on whitespace
runs, dropping empty tokens). -/
def tokenizeRef (s : List Nat) : List (List Nat) := chunksNonWs (normalize s)

/-- Modelled from the spec: a "Unicode word character", the class the spec's
tokenizer description uses.  Modelled on the Basic Latin and Latin-1 ranges as
the ASCII word characters together with the Latin-1 letters `À`–`ÿ` (excluding
`×` and `÷`); this is the fragment of `[\p\x7bL\x7d\p\x7bN\x7d_]` that the
concrete inputs below exercise. -/
def isUnicodeWordChar (c : Nat) : Bool :=
  isWordChar c || decide (192 ≤ c ∧ c ≤ 255 ∧ c ≠ 215 ∧ c ≠ 247)

/-- Modelled from the spec: the replacement step of the spec's reference
tokenizer, which keeps Unicode word characters. -/
def replaceNonWordU (c : Nat) : Nat :=
  if isUnicodeWordChar c || isWs c then c else 32

/-- Modelled from the spec: the reference tokenizer of claim C1 as the spec
words it — lowercase, replace every character that is not a *Unicode* word
character or whitespace with a space, split on whitespace runs, drop empty
tokens. -/
def tokenizeSpecUnicode (s : List Nat) : List (List Nat) :=
  chunksNonWs ((s.map jsToLower).map replaceNonWordU)

/-- A term character of the implemented tokenizer: ASCII lowercase letter,
ASCII digit, or underscore (the class `[a-z0-9_]`). -/
def isTermChar (c : Nat) : Bool :=
  decide ((97 ≤ c ∧ c ≤ 122) ∨ (48 ≤ c ∧ c ≤ 57) ∨ c = 95)

/-- A punctuation character: neither a word character nor whitespace (exactly
the class the tokenizer replaces by a space). -/
def isPunctuation (c : Nat) : Bool := !(isWordChar c || isWs c)

/-- JS `Array.prototype.join(" ")` on a list of terms: concatenate the terms
with a single space (code 32) between consecutive terms. -/
def joinSpace : List (List Nat) → List Nat
  | [] => []
  | [t] => t
  | t :: t2 :: ts => t ++ 32 :: joinSpace (t2 :: ts)

/-- The `TFIDFVectorizer` interface of `1_tf-idf.ts`.  Each field is wrapped
in `Option` so that a JavaScript object literal that omits a declared field
(the field is `undefined` at runtime) is represented by `none`. -/
structure TFIDFVectorizer where
  vocabulary : Option (List (List Nat × Nat))
  idf : Option (List (List Nat × ℚ))
  documentCount : Option Nat

/-- `buildTFIDFVectorizer` from `1_tf-idf.ts`, exactly as written: it
allocates an empty `vocabulary` map, an empty `documentFrequency` map and the
local `documentCount = documents.length`, and then returns the object literal
`\x7b\x7d`, which carries none of the three interface fields. -/
def buildTFIDFVectorizer (documents : List (List Nat)) : TFIDFVectorizer :=
  let vocabulary : List (List Nat × Nat) := []
  let documentFrequency : List (List Nat × Nat) := []
  let documentCount : Nat := documents.length
  { vocabulary := none, idf := none, documentCount := none }

/-- Modelled from the spec: a stored Document Record of the Index (§3) — the
caller-supplied external id together with the sparse term-id → TF-IDF weight
vector computed when the document was added.  The `search` operation of §4.4
is not implemented anywhere in the repository, so the Index, the query
vectorizer and the ranker below are modelled from the spec. -/
structure DocRecord where
  id : String
  vector : List (Nat × ℚ)

/-- Modelled from the spec: a Fitted index (§3, §4.4) — the vocabulary
mapping terms to ids, the idf table mapping term ids to their learned
weights, and the stored document records. -/
structure Index where
  vocab : List (List Nat × Nat)
  idf : List (Nat × ℚ)
  docs : List DocRecord

/-- Modelled from the spec: raw occurrence count of a term in a token
sequence (§4.2). -/
def countTerm (ts : List (List Nat)) (t : List Nat) : Nat :=
  (ts.filter (fun u => decide (u = t))).length

/-- Modelled from the spec: the idf weight stored for a term id. -/
def idfAt (ix : Index) (tid : Nat) : ℚ := ((ix.idf.lookup tid).getD 0)

/-- Modelled from the spec: query vectorization (§4.3, §4.4) — tokenize the
query, and give each distinct in-vocabulary term the weight
`rawCount * idf(termId)`; out-of-vocabulary terms are ignored. -/
def queryVector (ix : Index) (qtext : List Nat) : List (Nat × ℚ) :=
  let ts := tokenize qtext
  ts.dedup.filterMap fun t =>
    match ix.vocab.lookup t with
    | none => none
    | some tid => some (tid, (countTerm ts t : ℚ) * idfAt ix tid)

/-- Modelled from the spec: squared L2 norm of a sparse vector. -/
def normSq (v : List (Nat × ℚ)) : ℚ := (v.map (fun p => p.2 * p.2)).sum

/-- Modelled from the spec: sparse dot product over the term ids of the first
vector; term ids absent from the second vector contribute zero (§4.5). -/
def dot (u v : List (Nat × ℚ)) : ℚ :=
  (u.map (fun p => p.2 * ((v.lookup p.1).getD 0))).sum

/-- Modelled from the spec: cosine similarity with the zero-norm guards of
§4.5 — if the query or the document has norm 0 the score is defined to be
`0.0`; otherwise it is `dot(q, d) / (norm(q) * norm(d))` with the L2 norms. -/
noncomputable def score (q : List (Nat × ℚ)) (d : DocRecord) : ℝ :=
  if normSq q = 0 ∨ normSq d.vector = 0 then 0
  else (dot q d.vector : ℝ) /
    (Real.sqrt (normSq q : ℝ) * Real.sqrt (normSq d.vector : ℝ))

/-- Modelled from the spec: the result ordering of §4.5 — score descending,
ties broken by ascending external id. -/
def resBefore (a b : String × ℝ) : Prop :=
  b.2 < a.2 ∨ (a.2 = b.2 ∧ a.1 ≤ b.1)

open Classical in
/-- Modelled from the spec: insertion into a ranked result list, preserving
the §4.5 ordering. -/
noncomputable def insertRes (x : String × ℝ) : List (String × ℝ) → List (String × ℝ)
  | [] => [x]
  | y :: ys => if resBefore x y then x :: y :: ys else y :: insertRes x ys

/-- Modelled from the spec: sort a result list by score descending with the
ascending-id tie-break (§4.5). -/
noncomputable def sortRes (l : List (String × ℝ)) : List (String × ℝ) :=
  l.foldr insertRes []

/-- Modelled from the spec: `search` (§4.4, §4.5) — vectorize the query
against the current vocabulary and idf table, score every stored document,
sort by the §4.5 ordering and return the first `k` results. -/
noncomputable def search (ix : Index) (qtext : List Nat) (k : Nat) :
    List (String × ℝ) :=
  let q := queryVector ix qtext
  (sortRes (ix.docs.map (fun d => (d.id, score q d)))).take k

/-- A concrete fitted index (vocabulary \x7b"cat" ↦ 0\x7d, idf table, one stored
document) used as the input of the search witness. -/
def sampleIndex : Index :=
  { vocab := [(codes "cat", 0)], idf := [(0, 1)],
    docs := [{ id := "a", vector := [(0, 1)] }] }

end TfIdf
namespace TfIdf

theorem jsSplitWs_nil : jsSplitWs [] = [[]] := rfl

theorem jsSplitWs_ws_nil (c : Nat) (hc : isWs c = true) :
    jsSplitWs [c] = [[], []] := by
  rw [jsSplitWs.eq_def]; simp [hc, jsSplitWs]

theorem jsSplitWs_ws_ws (c c2 : Nat) (cs : List Nat) (hc : isWs c = true)
    (h2 : isWs c2 = true) : jsSplitWs (c :: c2 :: cs) = jsSplitWs (c2 :: cs) := by
  rw [jsSplitWs.eq_def]; simp only [hc, h2, if_true]

theorem jsSplitWs_ws_nws (c c2 : Nat) (cs : List Nat) (hc : isWs c = true)
    (h2 : isWs c2 = false) :
    jsSplitWs (c :: c2 :: cs) = [] :: jsSplitWs (c2 :: cs) := by
  rw [jsSplitWs.eq_def]
  simp only [hc, h2, if_true, Bool.false_eq_true, if_false]

theorem jsSplitWs_nws (c : Nat) (cs : List Nat) (h : List Nat)
    (t : List (List Nat)) (hc : isWs c = false) (ht : jsSplitWs cs = h :: t) :
    jsSplitWs (c :: cs) = (c :: h) :: t := by
  rw [jsSplitWs.eq_def]
  simp only [hc, Bool.false_eq_true, if_false, ht]

theorem chunksNonWs_nil : chunksNonWs [] = [] := rfl

theorem chunksNonWs_ws (c : Nat) (cs : List Nat) (hc : isWs c = true) :
    chunksNonWs (c :: cs) = chunksNonWs cs := by
  rw [chunksNonWs.eq_def]; simp only [hc, if_true]

theorem chunksNonWs_single (c : Nat) (hc : isWs c = false) :
    chunksNonWs [c] = [[c]] := by
  rw [chunksNonWs.eq_def]; simp [hc]

theorem chunksNonWs_nws_ws (c c2 : Nat) (cs : List Nat) (hc : isWs c = false)
    (h2 : isWs c2 = true) :
    chunksNonWs (c :: c2 :: cs) = [c] :: chunksNonWs (c2 :: cs) := by
  rw [chunksNonWs.eq_def]
  simp only [hc, h2, Bool.false_eq_true, if_false, if_true]

theorem chunksNonWs_nws_nws (c c2 : Nat) (cs : List Nat) (h : List Nat)
    (t : List (List Nat)) (hc : isWs c = false) (h2 : isWs c2 = false)
    (ht : chunksNonWs (c2 :: cs) = h :: t) :
    chunksNonWs (c :: c2 :: cs) = (c :: h) :: t := by
  rw [chunksNonWs.eq_def]
  simp only [hc, h2, Bool.false_eq_true, if_false, ht]

theorem jsSplitWs_ne_nil : ∀ l : List Nat, jsSplitWs l ≠ [] := by
  intro l
  induction l with
  | nil => simp [jsSplitWs_nil]
  | cons c cs ih =>
    cases hc : isWs c with
    | true =>
      cases cs with
      | nil => simp [jsSplitWs_ws_nil c hc]
      | cons c2 cs' =>
        cases h2 : isWs c2 with
        | true => rw [jsSplitWs_ws_ws c c2 cs' hc h2]; exact ih
        | false => simp [jsSplitWs_ws_nws c c2 cs' hc h2]
    | false =>
      cases e : jsSplitWs cs with
      | nil => exact absurd e ih
      | cons h t => simp [jsSplitWs_nws c cs h t hc e]

theorem jsSplitWs_ws_head (cs : List Nat) :
    ∀ c, isWs c = true → ∃ t, jsSplitWs (c :: cs) = [] :: t := by
  induction cs with
  | nil => intro c hc; exact ⟨[[]], jsSplitWs_ws_nil c hc⟩
  | cons c2 cs' ih =>
    intro c hc
    cases h2 : isWs c2 with
    | true =>
      obtain ⟨t, ht⟩ := ih c2 h2
      exact ⟨t, by rw [jsSplitWs_ws_ws c c2 cs' hc h2, ht]⟩
    | false =>
      exact ⟨jsSplitWs (c2 :: cs'), jsSplitWs_ws_nws c c2 cs' hc h2⟩

theorem jsSplitWs_head_nws (c : Nat) (cs : List Nat) (hc : isWs c = false) :
    ∃ h t, jsSplitWs (c :: cs) = (c :: h) :: t := by
  cases e : jsSplitWs cs with
  | nil => exact absurd e (jsSplitWs_ne_nil cs)
  | cons h t => exact ⟨h, t, jsSplitWs_nws c cs h t hc e⟩

theorem filter_split_eq_chunks (l : List Nat) :
    (jsSplitWs l).filter (fun w => decide (0 < w.length)) = chunksNonWs l := by
  induction l with
  | nil => rfl
  | cons c cs ih =>
    cases hc : isWs c with
    | true =>
      rw [chunksNonWs_ws c cs hc]
      cases cs with
      | nil => rw [jsSplitWs_ws_nil c hc]; rfl
      | cons c2 cs' =>
        cases h2 : isWs c2 with
        | true => rw [jsSplitWs_ws_ws c c2 cs' hc h2]; exact ih
        | false =>
          rw [jsSplitWs_ws_nws c c2 cs' hc h2]
          simpa using ih
    | false =>
      cases cs with
      | nil =>
        rw [jsSplitWs_nws c [] [] [] hc jsSplitWs_nil, chunksNonWs_single c hc]
        rfl
      | cons c2 cs' =>
        cases h2 : isWs c2 with
        | true =>
          obtain ⟨t, ht⟩ := jsSplitWs_ws_head cs' c2 h2
          rw [jsSplitWs_nws c (c2 :: cs') [] t hc ht,
            chunksNonWs_nws_ws c c2 cs' hc h2]
          rw [ht] at ih
          simp only [List.filter_cons] at ih ⊢
          simpa using ih
        | false =>
          obtain ⟨h, t, ht⟩ := jsSplitWs_head_nws c2 cs' h2
          rw [jsSplitWs_nws c (c2 :: cs') (c2 :: h) t hc ht]
          rw [ht] at ih
          simp only [List.filter_cons] at ih ⊢
          simp only [decide_eq_true_eq] at ih ⊢
          simp only [Nat.lt_irrefl, List.length_cons, Nat.zero_lt_succ,
            if_true] at ih ⊢
          exact (chunksNonWs_nws_nws c c2 cs' (c2 :: h)
            (List.filter (fun w => decide (0 < w.length)) t) hc h2
            ih.symm).symm

theorem tokenize_eq_chunks (s : List Nat) :
    tokenize s = chunksNonWs (normalize s) :=
  filter_split_eq_chunks (normalize s)

theorem normChar (c : Nat) :
    isWs (replaceNonWord (jsToLower c)) = true ∨
    isTermChar (replaceNonWord (jsToLower c)) = true := by
  simp only [isWordChar, isWs, isTermChar, replaceNonWord, jsToLower,
    Bool.or_eq_true, decide_eq_true_eq]
  split_ifs <;> simp_all <;> omega

theorem termChar_fixed (c : Nat) (hc : isTermChar c = true) :
    replaceNonWord (jsToLower c) = c := by
  simp only [isWordChar, isWs, isTermChar, replaceNonWord, jsToLower,
    Bool.or_eq_true, decide_eq_true_eq] at *
  split_ifs <;> omega

theorem termChar_not_ws (c : Nat) (hc : isTermChar c = true) :
    isWs c = false := by
  simp only [isWs, isTermChar, decide_eq_true_eq] at *
  simp only [decide_eq_false_iff_not]
  omega

theorem punct_normal_ws (c : Nat) (hc : isPunctuation c = true) :
    isWs (replaceNonWord (jsToLower c)) = true := by
  simp only [isPunctuation, isWordChar, isWs, replaceNonWord, jsToLower,
    Bool.not_eq_true', Bool.or_eq_false_iff, decide_eq_false_iff_not,
    decide_eq_true_eq] at *
  split_ifs <;> simp_all <;> omega

theorem space_fixed : replaceNonWord (jsToLower 32) = 32 := by decide

end TfIdf
namespace TfIdf

theorem chunksNonWs_head_nws (cs : List Nat) :
    ∀ c, isWs c = false → ∃ h t, chunksNonWs (c :: cs) = (c :: h) :: t := by
  induction cs with
  | nil => intro c hc; exact ⟨[], [], chunksNonWs_single c hc⟩
  | cons c2 cs' ih =>
    intro c hc
    cases h2 : isWs c2 with
    | true =>
      exact ⟨[], chunksNonWs (c2 :: cs'), chunksNonWs_nws_ws c c2 cs' hc h2⟩
    | false =>
      obtain ⟨h, t, ht⟩ := ih c2 h2
      exact ⟨c2 :: h, t, chunksNonWs_nws_nws c c2 cs' (c2 :: h) t hc h2 ht⟩

theorem chunksNonWs_mem : ∀ l : List Nat, ∀ t ∈ chunksNonWs l,
    t ≠ [] ∧ ∀ c ∈ t, c ∈ l ∧ isWs c = false := by
  intro l
  induction l with
  | nil => intro t ht; simp [chunksNonWs_nil] at ht
  | cons c cs ih =>
    intro t ht
    cases hc : isWs c with
    | true =>
      rw [chunksNonWs_ws c cs hc] at ht
      obtain ⟨hne, hmem⟩ := ih t ht
      exact ⟨hne, fun d hd => ⟨List.mem_cons_of_mem c (hmem d hd).1,
        (hmem d hd).2⟩⟩
    | false =>
      cases cs with
      | nil =>
        rw [chunksNonWs_single c hc] at ht
        simp only [List.mem_singleton] at ht
        subst ht
        refine ⟨by simp, fun d hd => ?_⟩
        simp only [List.mem_singleton] at hd
        rw [hd]
        exact ⟨List.mem_singleton_self c, hc⟩
      | cons c2 cs' =>
        cases h2 : isWs c2 with
        | true =>
          rw [chunksNonWs_nws_ws c c2 cs' hc h2] at ht
          rcases List.mem_cons.mp ht with h | h
          · subst h
            refine ⟨by simp, fun d hd => ?_⟩
            simp only [List.mem_singleton] at hd
            rw [hd]
            exact ⟨List.mem_cons_self c _, hc⟩
          · obtain ⟨hne, hmem⟩ := ih t h
            exact ⟨hne, fun d hd => ⟨List.mem_cons_of_mem c (hmem d hd).1,
              (hmem d hd).2⟩⟩
        | false =>
          obtain ⟨h, tl, hht⟩ := chunksNonWs_head_nws cs' c2 h2
          rw [chunksNonWs_nws_nws c c2 cs' (c2 :: h) tl hc h2 hht] at ht
          rcases List.mem_cons.mp ht with he | he
          · subst he
            refine ⟨by simp, fun d hd => ?_⟩
            rcases List.mem_cons.mp hd with hd | hd
            · rw [hd]; exact ⟨List.mem_cons_self c _, hc⟩
            · have : c2 :: h ∈ chunksNonWs (c2 :: cs') := by
                rw [hht]; exact List.mem_cons_self _ _
              obtain ⟨_, hmem⟩ := ih (c2 :: h) this
              exact ⟨List.mem_cons_of_mem c (hmem d hd).1, (hmem d hd).2⟩
          · have : t ∈ chunksNonWs (c2 :: cs') := by
              rw [hht]; exact List.mem_cons_of_mem _ he
            obtain ⟨hne, hmem⟩ := ih t this
            exact ⟨hne, fun d hd => ⟨List.mem_cons_of_mem c (hmem d hd).1,
              (hmem d hd).2⟩⟩

theorem chunksNonWs_all_ws (l : List Nat) (h : ∀ c ∈ l, isWs c = true) :
    chunksNonWs l = [] := by
  induction l with
  | nil => rfl
  | cons c cs ih =>
    rw [chunksNonWs_ws c cs (h c (List.mem_cons_self c cs))]
    exact ih (fun d hd => h d (List.mem_cons_of_mem c hd))

theorem chunksNonWs_all_nws : ∀ t : List Nat, t ≠ [] →
    (∀ c ∈ t, isWs c = false) → chunksNonWs t = [t] := by
  intro t
  induction t with
  | nil => intro h; exact absurd rfl h
  | cons c cs ih =>
    intro _ hall
    have hc : isWs c = false := hall c (List.mem_cons_self c cs)
    cases cs with
    | nil => exact chunksNonWs_single c hc
    | cons c2 cs' =>
      have h2 : isWs c2 = false := hall c2 (by simp)
      have := ih (by simp) (fun d hd => hall d (List.mem_cons_of_mem c hd))
      rw [chunksNonWs_nws_nws c c2 cs' (c2 :: cs') [] hc h2 this]

theorem chunksNonWs_sep (t : List Nat) (hne : t ≠ [])
    (hall : ∀ c ∈ t, isWs c = false) (rest : List Nat) :
    chunksNonWs (t ++ 32 :: rest) = t :: chunksNonWs rest := by
  induction t with
  | nil => exact absurd rfl hne
  | cons c cs ih =>
    have hc : isWs c = false := hall c (List.mem_cons_self c cs)
    cases cs with
    | nil =>
      have h32 : isWs 32 = true := by decide
      rw [List.singleton_append, chunksNonWs_nws_ws c 32 rest hc h32,
        chunksNonWs_ws 32 rest h32]
    | cons c2 cs' =>
      have h2 : isWs c2 = false := hall c2 (by simp)
      have := ih (by simp) (fun d hd => hall d (List.mem_cons_of_mem c hd))
      rw [List.cons_append]
      rw [List.cons_append] at this ⊢
      exact chunksNonWs_nws_nws c c2 (cs' ++ 32 :: rest) (c2 :: cs')
        (chunksNonWs rest) hc h2 this

end TfIdf
namespace TfIdf

theorem normalize_eq_map (s : List Nat) :
    normalize s = s.map (fun c => replaceNonWord (jsToLower c)) := by
  simp [normalize, List.map_map, Function.comp]

theorem tokenize_term_chars (s : List Nat) :
    ∀ t ∈ tokenize s, t ≠ [] ∧ ∀ c ∈ t, isTermChar c = true := by
  intro t ht
  rw [tokenize_eq_chunks] at ht
  obtain ⟨hne, hmem⟩ := chunksNonWs_mem (normalize s) t ht
  refine ⟨hne, fun c hc => ?_⟩
  obtain ⟨hcn, hws⟩ := hmem c hc
  rw [normalize_eq_map] at hcn
  obtain ⟨c0, _, rfl⟩ := List.mem_map.mp hcn
  rcases normChar c0 with h | h
  · rw [h] at hws; exact absurd hws (by simp)
  · exact h

theorem normalize_fixed (t : List Nat) (hall : ∀ c ∈ t, isTermChar c = true) :
    normalize t = t := by
  rw [normalize_eq_map]
  induction t with
  | nil => rfl
  | cons c cs ih =>
    rw [List.map_cons, termChar_fixed c (hall c (List.mem_cons_self c cs)),
      ih (fun d hd => hall d (List.mem_cons_of_mem c hd))]

theorem normalize_append (a b : List Nat) :
    normalize (a ++ b) = normalize a ++ normalize b := by
  simp [normalize_eq_map]

theorem normalize_cons_space (l : List Nat) :
    normalize (32 :: l) = 32 :: normalize l := by
  rw [normalize_eq_map, List.map_cons, space_fixed, ← normalize_eq_map]

theorem tokenize_joinSpace : ∀ ts : List (List Nat),
    (∀ t ∈ ts, t ≠ [] ∧ ∀ c ∈ t, isTermChar c = true) →
    tokenize (joinSpace ts) = ts := by
  intro ts
  induction ts with
  | nil => intro _; rfl
  | cons t ts' ih =>
    intro hall
    obtain ⟨hne, hterm⟩ := hall t (List.mem_cons_self t ts')
    have hnws : ∀ c ∈ t, isWs c = false :=
      fun c hc => termChar_not_ws c (hterm c hc)
    cases ts' with
    | nil =>
      show tokenize t = [t]
      rw [tokenize_eq_chunks, normalize_fixed t hterm]
      exact chunksNonWs_all_nws t hne hnws
    | cons t2 ts'' =>
      have hjs : joinSpace (t :: t2 :: ts'') = t ++ 32 :: joinSpace (t2 :: ts'') := rfl
      rw [hjs, tokenize_eq_chunks, normalize_append, normalize_fixed t hterm,
        normalize_cons_space, chunksNonWs_sep t hne hnws,
        ← tokenize_eq_chunks]
      rw [ih (fun u hu => hall u (List.mem_cons_of_mem t hu))]

theorem tokenize_all_punct (s : List Nat)
    (h : ∀ c ∈ s, isPunctuation c = true) : tokenize s = [] := by
  rw [tokenize_eq_chunks]
  apply chunksNonWs_all_ws
  intro d hd
  rw [normalize_eq_map] at hd
  obtain ⟨c0, hc0, rfl⟩ := List.mem_map.mp hd
  exact punct_normal_ws c0 (h c0 hc0)

end TfIdf
namespace TfIdf

theorem insertRes_perm (x : String × ℝ) :
    ∀ l : List (String × ℝ), (insertRes x l).Perm (x :: l) := by
  intro l
  induction l with
  | nil => simp [insertRes]
  | cons y ys ih =>
    rw [insertRes]
    split_ifs with h
    · exact List.Perm.refl _
    · exact (List.Perm.cons y ih).trans (List.Perm.swap x y ys)

theorem sortRes_perm (l : List (String × ℝ)) : (sortRes l).Perm l := by
  induction l with
  | nil => simp [sortRes]
  | cons x xs ih =>
    have : sortRes (x :: xs) = insertRes x (sortRes xs) := rfl
    rw [this]
    exact (insertRes_perm x (sortRes xs)).trans (List.Perm.cons x ih)

theorem queryVector_oov (ix : Index) (qtext : List Nat)
    (h : ∀ t ∈ tokenize qtext, ix.vocab.lookup t = none) :
    queryVector ix qtext = [] := by
  rw [queryVector]
  apply List.filterMap_eq_nil_iff.mpr
  intro t ht
  rw [h t (List.dedup_subset _ ht)]

theorem score_zero_query (q : List (Nat × ℚ)) (d : DocRecord)
    (hq : normSq q = 0) : score q d = 0 := by
  rw [score, if_pos (Or.inl hq)]

end TfIdf
namespace TfIdf

/-- C1, counterexample: on the input "é" the implemented tokenizer returns
the empty sequence, while the spec's reference pipeline (which keeps Unicode
word characters) returns the term "é"; the claimed equality fails. -/
theorem tokenize_ne_unicode_ref :
    tokenize (codes "é") = [] ∧ tokenizeSpecUnicode (codes "é") = [[233]] ∧
    tokenize (codes "é") ≠ tokenizeSpecUnicode (codes "é") := by decide

/-- C1, amended: for every input string, `tokenize` equals the reference
sequence obtained by lowercasing, replacing every character that is not an
ASCII word character (`[A-Za-z0-9_]`) or whitespace with a single space,
splitting on runs of whitespace, and dropping empty tokens. -/
theorem tokenize_eq_reference (s : List Nat) : tokenize s = tokenizeRef s :=
  tokenize_eq_chunks s

/-- C2, counterexample: the non-ASCII letter é (code point 233) is not
preserved inside the produced terms — tokenizing "café" yields the term
"caf", and 233 appears in no output term. -/
theorem tokenize_drops_nonascii_letter :
    tokenize (codes "café") = [codes "caf"] ∧
    233 ∉ (tokenize (codes "café")).flatten := by decide

/-- C2, amended: non-ASCII letters are stripped exactly like emoji and
symbols — every character of every produced term is an ASCII term character
(lowercase letter, digit or underscore), hence below code point 128. -/
theorem tokenize_output_ascii (s : List Nat) (c : Nat)
    (hc : c ∈ (tokenize s).flatten) : isTermChar c = true ∧ c < 128 := by
  obtain ⟨t, ht, hct⟩ := List.mem_flatten.mp hc
  have h := (tokenize_term_chars s t ht).2 c hct
  refine ⟨h, ?_⟩
  simp only [isTermChar, decide_eq_true_eq] at h
  omega

/-- Witness for C2's amended theorem at the concrete input "café". -/
theorem tokenize_output_ascii_witness :
    (99 ∈ (tokenize (codes "café")).flatten) ∧
    isTermChar 99 = true ∧ 99 < 128 :=
  ⟨by decide, tokenize_output_ascii (codes "café") 99 (by decide)⟩

/-- C3: tokenizing the empty string yields the empty sequence, and tokenizing
any string made only of punctuation characters yields the empty sequence;
`tokenize` is a total function, so neither case is an error. -/
theorem tokenize_empty_and_punct :
    tokenize [] = [] ∧
    ∀ s : List Nat, (∀ c ∈ s, isPunctuation c = true) → tokenize s = [] :=
  ⟨rfl, fun s h => tokenize_all_punct s h⟩

/-- Witness for C3 at the punctuation-only input "!?.". -/
theorem tokenize_empty_and_punct_witness :
    (∀ c ∈ codes "!?.", isPunctuation c = true) ∧
    tokenize (codes "!?.") = [] :=
  ⟨by decide, tokenize_empty_and_punct.2 (codes "!?.") (by decide)⟩

/-- C4: re-tokenizing the space-joined output of `tokenize` is the identity
on the term sequence. -/
theorem tokenize_idempotent (s : List Nat) :
    tokenize (joinSpace (tokenize s)) = tokenize s :=
  tokenize_joinSpace (tokenize s) (tokenize_term_chars s)

/-- C9: every produced term is a non-empty string of characters matching
`[a-z0-9_]` (no uppercase, no whitespace, nothing non-ASCII), and the
underscore is preserved as a term character. -/
theorem tokenize_terms_shape :
    (∀ s : List Nat, ∀ t ∈ tokenize s,
      t ≠ [] ∧ ∀ c ∈ t, isTermChar c = true) ∧
    tokenize (codes "a_b") = [codes "a_b"] :=
  ⟨fun s => tokenize_term_chars s, by decide⟩

/-- Witness for C9 at the concrete input "Hello_1!". -/
theorem tokenize_terms_shape_witness :
    (codes "hello_1" ∈ tokenize (codes "Hello_1!")) ∧
    (codes "hello_1" ≠ [] ∧ ∀ c ∈ codes "hello_1", isTermChar c = true) :=
  ⟨by decide,
    tokenize_terms_shape.1 (codes "Hello_1!") (codes "hello_1") (by decide)⟩

/-- C5, evaluation at the failing input: fitting the one-document corpus
"the cat sat" returns an object carrying no document count, no vocabulary
and no idf table — the function body is an unfinished stub returning an
empty object literal. -/
theorem buildTFIDFVectorizer_no_fit :
    (buildTFIDFVectorizer [codes "the cat sat"]).documentCount = none ∧
    (buildTFIDFVectorizer [codes "the cat sat"]).vocabulary = none ∧
    (buildTFIDFVectorizer [codes "the cat sat"]).idf = none :=
  ⟨rfl, rfl, rfl⟩

/-- C6, evaluation at the failing input: after fitting a corpus with two
distinct terms, the returned object has no vocabulary field at all, so no
term id is ever assigned. -/
theorem buildTFIDFVectorizer_no_ids :
    (buildTFIDFVectorizer [codes "cat", codes "dog"]).vocabulary = none :=
  rfl

/-- C7, evaluation at the failing input: after fitting the corpus ["cat"]
the returned object stores no idf value for any term. -/
theorem buildTFIDFVectorizer_no_idf :
    (buildTFIDFVectorizer [codes "cat"]).idf = none := rfl

/-- C10: `buildTFIDFVectorizer` is a constant function of its corpus, and
the returned object carries none of the vocabulary, idf or documentCount
data declared by the `TFIDFVectorizer` interface. -/
theorem buildTFIDFVectorizer_constant (d1 d2 : List (List Nat)) :
    buildTFIDFVectorizer d1 = buildTFIDFVectorizer d2 ∧
    (buildTFIDFVectorizer d1).vocabulary = none ∧
    (buildTFIDFVectorizer d1).idf = none ∧
    (buildTFIDFVectorizer d1).documentCount = none :=
  ⟨rfl, rfl, rfl, rfl⟩

/-- C8: if every token of the query is out of vocabulary (in particular if
the query tokenizes to the empty sequence) and `k` is at least the corpus
size, `search` returns one result per stored document, every returned score
is exactly 0, and every document id appears with score 0. -/
theorem search_oov_all_zero (ix : Index) (qtext : List Nat) (k : Nat)
    (hoov : ∀ t ∈ tokenize qtext, ix.vocab.lookup t = none)
    (hk : ix.docs.length ≤ k) :
    (search ix qtext k).length = ix.docs.length ∧
    (∀ r ∈ search ix qtext k, r.2 = 0) ∧
    (∀ d ∈ ix.docs, (d.id, (0 : ℝ)) ∈ search ix qtext k) := by
  have hq : queryVector ix qtext = [] := queryVector_oov ix qtext hoov
  have hscore : ∀ d, score (queryVector ix qtext) d = 0 := fun d =>
    score_zero_query _ d (by rw [hq]; rfl)
  have hperm := sortRes_perm
    (ix.docs.map (fun d => (d.id, score (queryVector ix qtext) d)))
  have hsearch : search ix qtext k =
      sortRes (ix.docs.map (fun d => (d.id, score (queryVector ix qtext) d))) := by
    rw [search]
    apply List.take_of_length_le
    rw [hperm.length_eq, List.length_map]
    exact hk
  refine ⟨?_, ?_, ?_⟩
  · rw [hsearch, hperm.length_eq, List.length_map]
  · intro r hr
    rw [hsearch] at hr
    have := hperm.mem_iff.mp hr
    obtain ⟨d, _, rfl⟩ := List.mem_map.mp this
    exact hscore d
  · intro d hd
    rw [hsearch, hperm.mem_iff]
    have : (d.id, score (queryVector ix qtext) d) ∈
        ix.docs.map (fun d => (d.id, score (queryVector ix qtext) d)) :=
      List.mem_map_of_mem _ hd
    rwa [hscore d] at this

/-- Witness for C8: a one-document index searched with the out-of-vocabulary
query "zzz" returns exactly its one document. -/
theorem search_oov_all_zero_witness :
    (∀ t ∈ tokenize (codes "zzz"), sampleIndex.vocab.lookup t = none) ∧
    sampleIndex.docs.length ≤ 1 ∧
    (search sampleIndex (codes "zzz") 1).length = sampleIndex.docs.length :=
  ⟨by decide, by decide,
    (search_oov_all_zero sampleIndex (codes "zzz") 1
      (by decide) (by decide)).1⟩

end TfIdf
